import Mathlib

/-!
Verification of the trento3d participation / random-field module
(`src/nucleon.h`, `src/rft2d.cxx`).

Floating-point `double` arithmetic is embedded as exact rational
arithmetic over `ℚ`.  External collaborators (the C library exponential,
GSL special functions `gsl_sf_gamma_inc_P` / `gsl_sf_erf_Q`, the square
root used in constructor initializers, the FFTW transforms and the
seeded random engine) are passed in as explicit function parameters;
hypotheses on them in the theorems state exactly the mathematical
properties of the real collaborators that a proof needs.
-/

namespace Trento3d

/-- Truncation of a rational toward zero, modelling a C `int(...)` cast
of a `double`. -/
def cTrunc (q : ℚ) : ℤ :=
  if 0 ≤ q then ⌊q⌋ else ⌈q⌉

/-- `Nucleon` (src/nucleon.h): transverse position, random-field anchor
indices, participant flag. -/
structure Nucleon where
  x : ℚ
  y : ℚ
  fi : ℤ
  fj : ℤ
  participant : Bool
deriving DecidableEq, Repr

/-- `Nucleon::set_participant` (src/nucleon.h:174-176). -/
def setParticipant (n : Nucleon) : Nucleon :=
  { n with participant := true }

/-- `Nucleon::set_position` (src/nucleon.h:164-172): stores the
position, resets the participant flag, and draws the two field anchor
indices as `engine()%1950+25`; `e1`,`e2` are the two values produced by
the random engine. -/
def setPosition (n : Nucleon) (x y : ℚ) (e1 e2 : ℕ) : Nucleon :=
  { n with
    x := x, y := y,
    participant := false,
    fi := (e1 % 1950 + 25 : ℕ),
    fj := (e2 % 1950 + 25 : ℕ) }

/-- Kernel half-width `Ncut(int(3.0*width_*N1_/L1_))`
(src/rft2d.cxx:66). -/
def ncut (width : ℚ) (N1 : ℤ) (L1 : ℚ) : ℤ :=
  cTrunc (3 * width * (N1 : ℚ) / L1)

/-- Constant data members of `NucleonProfile` (src/nucleon.h:54-84).
`neg_one_div_two_width_sqr` is the cached constant documented in the
header as `(-1/2w^2)`; `prefactor` is the current fluctuation prefactor
set by `fluctuate()`.  (The constructor lives in `nucleon.cxx`, which is
not part of the available sources; the fields are taken as given data.) -/
structure NucleonProfileData where
  width_sqr : ℚ
  trunc_radius_sqr : ℚ
  max_impact_sqr : ℚ
  neg_one_div_two_width_sqr : ℚ
  cross_sec_param : ℚ
  prefactor : ℚ
deriving DecidableEq, Repr

/-- `NucleonProfile::thickness` (src/nucleon.h:193-197).  `fexp` models
the external `FastExp` collaborator applied to the exponent. -/
def thickness (p : NucleonProfileData) (fexp : ℚ → ℚ) (distance_sqr : ℚ) : ℚ :=
  if distance_sqr > p.trunc_radius_sqr then 0
  else p.prefactor * fexp (p.neg_one_div_two_width_sqr * distance_sqr)

/-- The tail of a random stream: the stream after one draw has been
consumed.  A stream `r : ℕ → ℚ` models the global engine's upcoming
uniform draws, `r 0` being the next one. -/
def rngTail (r : ℕ → ℚ) : ℕ → ℚ := fun n => r (n + 1)

/-- `NucleonProfile::participate` (src/nucleon.h:203-244).
`fexp` models `std::exp`; `kf` models
`rft2d::calculate_fluct_norm` of the field generator (declared in the
missing header `rft2d.h`); `r` is the stream of upcoming
`random::canonical` uniform draws.  Returns the decision, the two
(possibly updated) nucleons, and the remaining stream. -/
def participate (p : NucleonProfileData) (fexp : ℚ → ℚ)
    (kf : ℤ → ℤ → ℤ → ℤ → ℚ → ℚ → ℚ)
    (A B : Nucleon) (r : ℕ → ℚ) : Bool × Nucleon × Nucleon × (ℕ → ℚ) :=
  if A.participant && B.participant then (true, A, B, r)
  else
    let dx := A.x - B.x
    let dy := A.y - B.y
    let distance_sqr := dx * dx + dy * dy
    if distance_sqr > p.max_impact_sqr then (false, A, B, r)
    else
      let Kf := kf A.fi A.fj B.fi B.fj dx dy
      let one_minus_prob :=
        fexp (-Kf * fexp (p.cross_sec_param - (1/4) * distance_sqr / p.width_sqr))
      if one_minus_prob < r 0 then
        (true, setParticipant A, setParticipant B, rngTail r)
      else
        (false, A, B, rngTail r)

/-- Pointwise continuity of a rational-valued function at a point,
stated with the usual epsilon-delta formulation. -/
def ContinuousAtQ (f : ℚ → ℚ) (a : ℚ) : Prop :=
  ∀ ε : ℚ, 0 < ε → ∃ δ : ℚ, 0 < δ ∧ ∀ x : ℚ, |x - a| < δ → |f x - f a| < ε

/-- Truncated quadratic Taylor polynomial of the exponential; used as a
concrete computable stand-in for the library exponential collaborator
when theorems are instantiated. -/
def qTaylor2 (x : ℚ) : ℚ := 1 + x + x ^ 2 / 2

/-- Index search modelling the interval lookup of `gsl_spline_eval`
with `gsl_interp_linear`: the greatest index `i ≤ m` with `ya i ≤ c`
(`0` if there is none). -/
def tabIdx (ya : ℕ → ℚ) : ℕ → ℚ → ℕ
  | 0, _ => 0
  | m + 1, c => if ya (m + 1) ≤ c then m + 1 else tabIdx ya m c

/-- Linear-interpolation evaluation of an `n`-point table with
abscissae `ya` and ordinates `xa`, modelling
`gsl_spline_eval(spline, c, acc)` for `gsl_interp_linear`; in
`iCDF::iCDF` the spline is initialised with x-array `y_gamma_cdf` and
y-array `x_gamma` (src/rft2d.cxx:22). -/
def splineLin (ya xa : ℕ → ℚ) (n : ℕ) (c : ℚ) : ℚ :=
  let i := tabIdx ya (n - 2) c
  xa i + (xa (i + 1) - xa i) * (c - ya i) / (ya (i + 1) - ya i)

/-- The `iCDF` state: table size, shape parameter and the two tabulated
arrays (src/rft2d.cxx:6-23). -/
structure ICDF where
  N : ℕ
  fluct : ℚ
  dx_gamma : ℚ
  x_gamma : ℕ → ℚ
  y_gamma_cdf : ℕ → ℚ

/-- `iCDF::iCDF` (src/rft2d.cxx:6-23): `dx_gamma = 10*sqrt(fluct)/N`,
`x_gamma[i] = i*dx_gamma`, `y_gamma_cdf[i] = P(fluct, x_gamma[i])`.
`sqrtFluct` models the library `sqrt(fluct)`; `P` models
`gsl_sf_gamma_inc_P` (regularized lower incomplete gamma CDF). -/
def iCDFInit (N : ℕ) (fluct sqrtFluct : ℚ) (P : ℚ → ℚ → ℚ) : ICDF :=
  let dx := 10 * sqrtFluct / N
  { N := N, fluct := fluct, dx_gamma := dx,
    x_gamma := fun i => i * dx,
    y_gamma_cdf := fun i => P fluct (i * dx) }

/-- `iCDF::operator()` (src/rft2d.cxx:29-50).  `Qs` models
`gsl_sf_erf_Q` (standard-normal upper tail), so `cdf = 1 - Qs g`. -/
def iCDFEval (t : ICDF) (Qs : ℚ → ℚ) (g : ℚ) : ℚ :=
  let cdf := 1 - Qs g
  if cdf < t.y_gamma_cdf 0 then t.x_gamma 0 / t.fluct
  else if cdf > t.y_gamma_cdf (t.N - 1) then t.x_gamma (t.N - 1) / t.fluct
  else
    let result := splineLin t.y_gamma_cdf t.x_gamma t.N cdf / t.fluct
    if result < 0 then 0 else result

/-- One complex workspace cell `(re, im)`, modelling one
`fftw_complex` entry. -/
abbrev Cell := ℚ × ℚ

/-- Functional update of one flat-indexed workspace cell. -/
def setAt (g : ℕ → Cell) (idx : ℕ) (c : Cell) : ℕ → Cell :=
  fun m => if m = idx then c else g m

/-- The flat workspace address touched by loop iteration `(i, j)` of
both grid loops: `phi[i*N1+j]` (src/rft2d.cxx:104-105, 122-123).  The
loop pair is recovered from the row-major iteration counter
`n = i*N2 + j` as `i = n / N2`, `j = n % N2`. -/
def loopAddr (N1 N2 n : ℕ) : ℕ := (n / N2) * N1 + n % N2

/-- `rft2d::real_space_white_noise` (src/rft2d.cxx:98-108): iterate
`i < N1` (outer) and `j < N2` (inner); write the next draw of
`white_noise_generator(generator)` to the real channel of
`phi_x[i*N1+j]` and `0` to the imaginary channel.  `noise n` is the
`n`-th normal draw, consumed in row-major iteration order. -/
def real_space_white_noise (N1 N2 : ℕ) (noise : ℕ → ℚ) (g : ℕ → Cell) : ℕ → Cell :=
  (List.range (N1 * N2)).foldl
    (fun h n => setAt h (loopAddr N1 N2 n) (noise n, 0)) g

/-- The spectral filter factor
`ker = Var_k * exp(0.5*coeff_k*((min(i,N1-i)/L1)^2 + (min(j,N2-j)/L2)^2))`
of `apply_k_spcae_propagation` (src/rft2d.cxx:118-121), `fexp`
modelling `exp`. -/
def kerFactor (N1 N2 : ℕ) (L1 L2 Var_k coeff_k : ℚ) (fexp : ℚ → ℚ) (i j : ℕ) : ℚ :=
  Var_k * fexp (1/2 * coeff_k *
    (((min i (N1 - i) : ℕ) / L1) ^ 2 + ((min j (N2 - j) : ℕ) / L2) ^ 2))

/-- `rft2d::apply_k_spcae_propagation` (src/rft2d.cxx:110-126): the
double loop multiplies both channels of `phi_k[i*N1+j]` in place by the
filter factor. -/
def apply_k_spcae_propagation (N1 N2 : ℕ) (L1 L2 Var_k coeff_k : ℚ) (fexp : ℚ → ℚ)
    (g : ℕ → Cell) : ℕ → Cell :=
  (List.range (N1 * N2)).foldl
    (fun h n => setAt h (loopAddr N1 N2 n)
      (kerFactor N1 N2 L1 L2 Var_k coeff_k fexp (n / N2) (n % N2) * (h (loopAddr N1 N2 n)).1,
       kerFactor N1 N2 L1 L2 Var_k coeff_k fexp (n / N2) (n % N2) * (h (loopAddr N1 N2 n)).2)) g

/-- `rft2d::run` (src/rft2d.cxx:128-135): white-noise fill, forward
transform, spectral filter, inverse transform.  `fwd` and `bwd` model
`fftw_execute(plan_x2k)` and `fftw_execute(plan_k2x)`. -/
def rft2dRun (N1 N2 : ℕ) (L1 L2 Var_k coeff_k : ℚ) (fexp : ℚ → ℚ)
    (fwd bwd : (ℕ → Cell) → (ℕ → Cell)) (noise : ℕ → ℚ) (g : ℕ → Cell) : ℕ → Cell :=
  bwd (apply_k_spcae_propagation N1 N2 L1 L2 Var_k coeff_k fexp
    (fwd (real_space_white_noise N1 N2 noise g)))

/-- The list of flat workspace addresses written by one grid pass, in
iteration order. -/
def writeAddrs (N1 N2 : ℕ) : List ℕ :=
  (List.range (N1 * N2)).map (loopAddr N1 N2)

/-- The data members of `rft2d` (src/rft2d.h as used by
src/rft2d.cxx:54-90).  The FFTW buffers, plans and the seeded engine
are runtime state, not configuration, and are modelled separately. -/
structure RFT2D where
  N1 : ℤ
  N2 : ℤ
  L1 : ℚ
  L2 : ℚ
  Var_x : ℚ
  Var_k : ℚ
  lx : ℚ
  coeff_k : ℚ
  dx1 : ℚ
  dx2 : ℚ
  dk1 : ℚ
  dk2 : ℚ
  icdf : ICDF
  width : ℚ
  dxy2 : ℚ
  dxy : ℚ
  Ncut : ℤ
  TAB_clip : ℕ → ℕ → ℚ

/-- `rft2d::rft2d` (src/rft2d.cxx:54-90): the initializer list computes
every derived constant and the body fills the `(2*Ncut+1)^2` kernel
table `TAB_clip[i][j] =
exp(-(ic*ic+jc*jc)*dxy2/width/width)*dxy2/(M_PI*width*width)` with
`ic = i-Ncut`, `jc = j-Ncut`.  There is no validation of any argument
and no failure path.  `sqrtFn`, `pi_`, `fexp`, `P` model the library
`sqrt`, `M_PI`, `exp` and `gsl_sf_gamma_inc_P`; `seed` only seeds the
engine and affects no stored field. -/
def rft2dInit (N1 N2 : ℤ) (L1 L2 Var_Phi lx : ℚ) (seed : ℤ) (width : ℚ)
    (sqrtFn : ℚ → ℚ) (pi_ : ℚ) (fexp : ℚ → ℚ) (P : ℚ → ℚ → ℚ) : RFT2D :=
  let Ncut : ℤ := cTrunc (3 * width * (N1 : ℚ) / L1)
  let dxy2 := L1 * L2 / (N1 : ℚ) / (N2 : ℚ)
  { N1 := N1, N2 := N2, L1 := L1, L2 := L2,
    Var_x := Var_Phi,
    Var_k := sqrtFn (pi_ * 2 * lx * lx / (N1 : ℚ) / (N2 : ℚ) / L1 / L2),
    lx := lx,
    coeff_k := -pi_ * pi_ * 2 * lx * lx,
    dx1 := L1 / (N1 : ℚ), dx2 := L2 / (N2 : ℚ),
    dk1 := 1 / L1, dk2 := 1 / L2,
    icdf := iCDFInit 500 Var_Phi (sqrtFn Var_Phi) P,
    width := width,
    dxy2 := dxy2,
    dxy := L1 / (N1 : ℚ),
    Ncut := Ncut,
    TAB_clip := fun i j =>
      fexp (-((((i : ℤ) - Ncut) ^ 2 + ((j : ℤ) - Ncut) ^ 2 : ℤ) : ℚ) * dxy2 / width / width) *
        dxy2 / (pi_ * width * width) }

/-- The sum of all `(2*Ncut+1)^2` kernel-table entries. -/
def kernelSum (r : RFT2D) : ℚ :=
  ∑ i ∈ Finset.range (2 * r.Ncut + 1).toNat,
    ∑ j ∈ Finset.range (2 * r.Ncut + 1).toNat, r.TAB_clip i j

/-- The kernel-table sum additionally scaled by the grid cell area
`dxy2`, as the claim states it. -/
def kernelScaledSum (r : RFT2D) : ℚ := kernelSum r * r.dxy2

/-- Concrete rational stand-in for `exp` on nonpositive integer
arguments: `x ↦ s^(-x)` with `s = 0.367879441` a rational approximation
of `exp(-1)`; used to instantiate kernel-table computations. -/
def qExpNegInt (x : ℚ) : ℚ := (367879441 / 10 ^ 9 : ℚ) ^ (Int.toNat (cTrunc (-x)))

end Trento3d

namespace Trento3d

lemma mod1950_lt (e : ℕ) : e % 1950 < 1950 := Nat.mod_lt _ (by norm_num)

/-- **C1**: for a pair that is not already jointly participating and
whose squared distance is within the maximum impact parameter,
`participate` queries the field generator at the two nucleons' anchors,
forms `q = exp(-Kf * exp(cross_sec_param - d^2/(4 width^2)))`, consumes
exactly one uniform draw `u = r 0`, and participates (setting both
flags) exactly when `q < u`, leaving the flags unchanged otherwise. -/
theorem participate_pair_decision (p : NucleonProfileData) (fexp : ℚ → ℚ)
    (kf : ℤ → ℤ → ℤ → ℤ → ℚ → ℚ → ℚ) (A B : Nucleon) (r : ℕ → ℚ)
    (hpart : ¬(A.participant = true ∧ B.participant = true))
    (hd : (A.x - B.x) * (A.x - B.x) + (A.y - B.y) * (A.y - B.y) ≤ p.max_impact_sqr) :
    participate p fexp kf A B r =
      (if fexp (-(kf A.fi A.fj B.fi B.fj (A.x - B.x) (A.y - B.y)) *
            fexp (p.cross_sec_param -
              ((A.x - B.x) * (A.x - B.x) + (A.y - B.y) * (A.y - B.y)) /
                (4 * p.width_sqr))) < r 0
       then (true, setParticipant A, setParticipant B, rngTail r)
       else (false, A, B, rngTail r)) := by
  have hb : (A.participant && B.participant) = false := by
    cases hA : A.participant <;> cases hB : B.participant <;> simp_all
  have harg : p.cross_sec_param -
      (1/4) * ((A.x - B.x) * (A.x - B.x) + (A.y - B.y) * (A.y - B.y)) / p.width_sqr =
      p.cross_sec_param -
      ((A.x - B.x) * (A.x - B.x) + (A.y - B.y) * (A.y - B.y)) / (4 * p.width_sqr) := by
    ring
  rw [participate, hb]
  simp only [Bool.false_eq_true, if_false, not_lt.2 hd, if_neg (not_lt.2 hd)]
  rw [harg]

/-- **C2**: the two early exits of `participate` consume no draw and
leave the nucleons untouched — both already participants gives `true`,
otherwise an over-range squared distance gives `false`, for every field
content `kf` and exponential; in the remaining case exactly one uniform
draw is consumed (the returned stream is the tail of the input one). -/
theorem participate_draw_discipline (p : NucleonProfileData) (fexp : ℚ → ℚ)
    (kf : ℤ → ℤ → ℤ → ℤ → ℚ → ℚ → ℚ) (A B : Nucleon) (r : ℕ → ℚ) :
    (A.participant = true ∧ B.participant = true →
      participate p fexp kf A B r = (true, A, B, r)) ∧
    (¬(A.participant = true ∧ B.participant = true) →
      p.max_impact_sqr < (A.x - B.x) * (A.x - B.x) + (A.y - B.y) * (A.y - B.y) →
      participate p fexp kf A B r = (false, A, B, r)) ∧
    (¬(A.participant = true ∧ B.participant = true) →
      (A.x - B.x) * (A.x - B.x) + (A.y - B.y) * (A.y - B.y) ≤ p.max_impact_sqr →
      (participate p fexp kf A B r).2.2.2 = rngTail r) := by
  refine ⟨fun h => ?_, fun h hfar => ?_, fun h hnear => ?_⟩
  · rw [participate, if_pos (by simp [h.1, h.2])]
  · have hb : (A.participant && B.participant) = false := by
      cases hA : A.participant <;> cases hB : B.participant <;> simp_all
    rw [participate, hb]
    simp only [Bool.false_eq_true, if_false]
    rw [if_pos hfar]
  · have hb : (A.participant && B.participant) = false := by
      cases hA : A.participant <;> cases hB : B.participant <;> simp_all
    rw [participate, hb]
    simp only [Bool.false_eq_true, if_false, if_neg (not_lt.2 hnear)]
    by_cases hq : fexp (-(kf A.fi A.fj B.fi B.fj (A.x - B.x) (A.y - B.y)) *
        fexp (p.cross_sec_param -
          1/4 * ((A.x - B.x) * (A.x - B.x) + (A.y - B.y) * (A.y - B.y)) / p.width_sqr)) < r 0
    · rw [if_pos hq]
    · rw [if_neg hq]

/-- Witness for C2 at concrete pairs: an already-participating pair, an
out-of-range pair, and an in-range pair. -/
theorem participate_draw_discipline_witness :
    participate ⟨1/2, 9/4, 10, -1, 0, 1⟩ qTaylor2 (fun _ _ _ _ _ _ => 1)
      ⟨0, 0, 30, 40, true⟩ ⟨1, 0, 50, 60, true⟩ (fun _ => 9/10) =
      (true, ⟨0, 0, 30, 40, true⟩, ⟨1, 0, 50, 60, true⟩, fun _ => 9/10) ∧
    participate ⟨1/2, 9/4, 10, -1, 0, 1⟩ qTaylor2 (fun _ _ _ _ _ _ => 1)
      ⟨0, 0, 30, 40, false⟩ ⟨4, 0, 50, 60, true⟩ (fun _ => 9/10) =
      (false, ⟨0, 0, 30, 40, false⟩, ⟨4, 0, 50, 60, true⟩, fun _ => 9/10) ∧
    (participate ⟨1/2, 9/4, 10, -1, 0, 1⟩ qTaylor2 (fun _ _ _ _ _ _ => 1)
      ⟨0, 0, 30, 40, false⟩ ⟨1, 0, 50, 60, true⟩ (fun _ => 9/10)).2.2.2 =
      rngTail (fun _ => 9/10) := by
  refine ⟨?_, ?_, ?_⟩
  · exact (participate_draw_discipline _ _ _ _ _ _).1 ⟨rfl, rfl⟩
  · exact (participate_draw_discipline _ _ _ _ _ _).2.1 (by simp) (by norm_num)
  · exact (participate_draw_discipline _ _ _ _ _ _).2.2 (by simp) (by norm_num)

/-- **C3 counterexample**: the anchor-selection policy in
`Nucleon::set_position` is the hard-coded `engine()%1950+25`,
independent of the configured grid.  For the configured grid
`N1 = 100`, `width = 1`, `L1 = 100` (so `cut = 3`) and engine value
`1949` the assigned anchor `fi = 1974` violates
`fi + cut ≤ N1 - 1`. -/
theorem setPosition_anchor_out_of_range :
    ¬((setPosition ⟨0, 0, 0, 0, false⟩ 0 0 1949 0).fi + ncut 1 100 100 ≤ 100 - 1) := by
  norm_num [setPosition, ncut, cTrunc]

/-- **C3 amended**: every anchor pair assigned by `set_position` lies in
`[25, 1974]`; consequently the in-grid bounds
`fi - cut ≥ 0`, `fi + cut ≤ N1 - 1`, `fj - cut ≥ 0`, `fj + cut ≤ N2 - 1`
hold for a configured grid precisely when it is large enough, namely
whenever `N1 ≥ 2000`, `N2 ≥ 2000` and `0 ≤ cut ≤ 25` for the kernel
half-width `cut = int(3 width N1 / L1)`. -/
theorem setPosition_anchor_in_range (n : Nucleon) (x y : ℚ) (e1 e2 : ℕ)
    (width L1 : ℚ) (N1 N2 : ℤ)
    (hN1 : 2000 ≤ N1) (hN2 : 2000 ≤ N2)
    (hcut0 : 0 ≤ ncut width N1 L1) (hcut : ncut width N1 L1 ≤ 25) :
    0 ≤ (setPosition n x y e1 e2).fi - ncut width N1 L1 ∧
    (setPosition n x y e1 e2).fi + ncut width N1 L1 ≤ N1 - 1 ∧
    0 ≤ (setPosition n x y e1 e2).fj - ncut width N1 L1 ∧
    (setPosition n x y e1 e2).fj + ncut width N1 L1 ≤ N2 - 1 := by
  have h1 := mod1950_lt e1
  have h2 := mod1950_lt e2
  simp only [setPosition]
  refine ⟨?_, ?_, ?_, ?_⟩ <;> push_cast <;> omega

/-- Witness for C3 amended: grid `2000 × 2000`, `width = 1`,
`L1 = 240` (so `cut = 25`), engine values `7` and `1949`. -/
theorem setPosition_anchor_in_range_witness :
    0 ≤ (setPosition ⟨0, 0, 0, 0, false⟩ 0 0 7 1949).fi - ncut 1 2000 240 ∧
    (setPosition ⟨0, 0, 0, 0, false⟩ 0 0 7 1949).fi + ncut 1 2000 240 ≤ 2000 - 1 ∧
    0 ≤ (setPosition ⟨0, 0, 0, 0, false⟩ 0 0 7 1949).fj - ncut 1 2000 240 ∧
    (setPosition ⟨0, 0, 0, 0, false⟩ 0 0 7 1949).fj + ncut 1 2000 240 ≤ 2000 - 1 :=
  setPosition_anchor_in_range ⟨0, 0, 0, 0, false⟩ 0 0 7 1949 1 240 2000 2000
    (by norm_num) (by norm_num)
    (by norm_num [ncut, cTrunc]) (by norm_num [ncut, cTrunc])

/-- **C4 counterexample**: `thickness` is not continuous in value at the
truncation boundary: with `width^2 = 1` (cached exponent constant
`-1/2`), truncation radius squared `1`, prefactor `1` and the quadratic
Taylor exponential as the fast-exponential collaborator, the value at
the boundary is `5/8` while every point beyond the boundary gives `0`. -/
theorem thickness_not_continuous_at_boundary :
    ¬ ContinuousAtQ (thickness ⟨1, 1, 10, -(1/2), 0, 1⟩ qTaylor2) 1 := by
  intro h
  obtain ⟨δ, hδ, hball⟩ := h (5/8) (by norm_num)
  have hx := hball (1 + δ/2) (by rw [add_sub_cancel_left, abs_of_pos (by linarith)]; linarith)
  rw [show thickness ⟨1, 1, 10, -(1/2), 0, 1⟩ qTaylor2 (1 + δ/2) = 0 from
        if_pos (by simpa using by linarith : (1 : ℚ) + δ/2 > 1),
      show thickness ⟨1, 1, 10, -(1/2), 0, 1⟩ qTaylor2 1 = 5/8 by
        norm_num [thickness, qTaylor2]] at hx
  rw [zero_sub, abs_neg, abs_of_nonneg (by norm_num)] at hx
  exact absurd hx (lt_irrefl _)

/-- **C4 amended**: `thickness` returns exactly `0` beyond the
truncation radius and `prefactor * exp(-d^2/(2 width^2))` otherwise
(through the fast-exponential collaborator, the cached constant being
`-1/(2 width^2)`); at the boundary the value is
`prefactor * exp(-trunc^2/(2 width^2))`, so the function has a jump
there and is discontinuous whenever that boundary value is nonzero. -/
theorem thickness_formula_and_jump (p : NucleonProfileData) (fexp : ℚ → ℚ)
    (hw : p.neg_one_div_two_width_sqr = -(1 / (2 * p.width_sqr))) :
    (∀ d2, p.trunc_radius_sqr < d2 → thickness p fexp d2 = 0) ∧
    (∀ d2, d2 ≤ p.trunc_radius_sqr →
      thickness p fexp d2 = p.prefactor * fexp (-(d2 / (2 * p.width_sqr)))) ∧
    (p.prefactor * fexp (-(p.trunc_radius_sqr / (2 * p.width_sqr))) ≠ 0 →
      ¬ ContinuousAtQ (thickness p fexp) p.trunc_radius_sqr) := by
  have hval : ∀ d2, d2 ≤ p.trunc_radius_sqr →
      thickness p fexp d2 = p.prefactor * fexp (-(d2 / (2 * p.width_sqr))) := by
    intro d2 hd2
    rw [thickness, if_neg (not_lt.2 hd2), hw]
    congr 1
    ring_nf
  refine ⟨fun d2 hd2 => if_pos hd2, hval, fun hc h => ?_⟩
  obtain ⟨δ, hδ, hball⟩ := h _ (abs_pos.2 hc)
  have hx := hball (p.trunc_radius_sqr + δ/2)
    (by rw [add_sub_cancel_left, abs_of_pos (by linarith)]; linarith)
  rw [show thickness p fexp (p.trunc_radius_sqr + δ/2) = 0 from if_pos (by linarith),
      hval _ le_rfl] at hx
  rw [zero_sub, abs_neg] at hx
  exact absurd hx (lt_irrefl _)

/-- Witness for C4 amended: `width^2 = 1/2`, truncation radius squared
`2`, prefactor `3`, quadratic Taylor exponential. -/
theorem thickness_formula_and_jump_witness :
    thickness ⟨1/2, 2, 10, -1, 0, 3⟩ qTaylor2 3 = 0 ∧
    thickness ⟨1/2, 2, 10, -1, 0, 3⟩ qTaylor2 1 = 3 * qTaylor2 (-(1 / (2 * (1/2)))) ∧
    ¬ ContinuousAtQ (thickness ⟨1/2, 2, 10, -1, 0, 3⟩ qTaylor2) 2 := by
  have h := thickness_formula_and_jump ⟨1/2, 2, 10, -1, 0, 3⟩ qTaylor2 (by norm_num)
  exact ⟨h.1 3 (by norm_num), h.2.1 1 (by norm_num),
    h.2.2 (by norm_num [qTaylor2])⟩

lemma tabIdx_le (ya : ℕ → ℚ) (m : ℕ) (c : ℚ) : tabIdx ya m c ≤ m := by
  induction m with
  | zero => simp [tabIdx]
  | succ k ih =>
    simp only [tabIdx]
    split
    · exact le_refl _
    · exact le_trans ih (Nat.le_succ k)

lemma tabIdx_mono (ya : ℕ → ℚ) (m : ℕ) {c c' : ℚ} (h : c ≤ c') :
    tabIdx ya m c ≤ tabIdx ya m c' := by
  induction m with
  | zero => simp [tabIdx]
  | succ k ih =>
    simp only [tabIdx]
    by_cases h1 : ya (k + 1) ≤ c
    · rw [if_pos h1, if_pos (le_trans h1 h)]
    · rw [if_neg h1]
      by_cases h2 : ya (k + 1) ≤ c'
      · rw [if_pos h2]; exact le_trans (tabIdx_le ya k c) (Nat.le_succ k)
      · rw [if_neg h2]; exact ih

lemma tabIdx_val_le (ya : ℕ → ℚ) (m : ℕ) {c : ℚ} (h0 : ya 0 ≤ c) :
    ya (tabIdx ya m c) ≤ c := by
  induction m with
  | zero => simpa [tabIdx] using h0
  | succ k ih =>
    simp only [tabIdx]
    by_cases h1 : ya (k + 1) ≤ c
    · rwa [if_pos h1]
    · rw [if_neg h1]; exact ih

lemma tabIdx_next_ge (ya : ℕ → ℚ) (m : ℕ) :
    ∀ {c : ℚ}, c ≤ ya (m + 1) → c ≤ ya (tabIdx ya m c + 1) := by
  induction m with
  | zero => intro c h; simpa [tabIdx] using h
  | succ k ih =>
    intro c h
    simp only [tabIdx]
    by_cases h1 : ya (k + 1) ≤ c
    · rw [if_pos h1]; exact h
    · rw [if_neg h1]; exact ih (le_of_lt (lt_of_not_le h1))

lemma splineLin_bounds (ya xa : ℕ → ℚ) (n : ℕ) (c : ℚ) (hn : 2 ≤ n)
    (hxa : ∀ i j : ℕ, i ≤ j → xa i ≤ xa j)
    (hstrict : ∀ i : ℕ, i + 1 ≤ n - 1 → ya i < ya (i + 1))
    (hc0 : ya 0 ≤ c) (hcM : c ≤ ya (n - 1)) :
    xa (tabIdx ya (n - 2) c) ≤ splineLin ya xa n c ∧
    splineLin ya xa n c ≤ xa (tabIdx ya (n - 2) c + 1) := by
  have hidx : tabIdx ya (n - 2) c ≤ n - 2 := tabIdx_le ya _ c
  have hm1 : n - 2 + 1 = n - 1 := by omega
  have hylo : ya (tabIdx ya (n - 2) c) ≤ c := tabIdx_val_le ya _ hc0
  have hyhi : c ≤ ya (tabIdx ya (n - 2) c + 1) :=
    tabIdx_next_ge ya _ (by rw [hm1]; exact hcM)
  have hD : 0 < ya (tabIdx ya (n - 2) c + 1) - ya (tabIdx ya (n - 2) c) := by
    have := hstrict (tabIdx ya (n - 2) c) (by omega)
    linarith
  have hX : 0 ≤ xa (tabIdx ya (n - 2) c + 1) - xa (tabIdx ya (n - 2) c) := by
    have := hxa (tabIdx ya (n - 2) c) (tabIdx ya (n - 2) c + 1) (Nat.le_succ _)
    linarith
  simp only [splineLin]
  constructor
  · have := div_nonneg
      (mul_nonneg hX (by linarith : (0:ℚ) ≤ c - ya (tabIdx ya (n - 2) c))) hD.le
    linarith
  · have ht : (c - ya (tabIdx ya (n - 2) c)) /
        (ya (tabIdx ya (n - 2) c + 1) - ya (tabIdx ya (n - 2) c)) ≤ 1 :=
      (div_le_one hD).2 (by linarith)
    have := mul_le_of_le_one_right hX ht
    rw [mul_div_assoc]
    linarith

lemma splineLin_mono (ya xa : ℕ → ℚ) (n : ℕ) (hn : 2 ≤ n)
    (hxa : ∀ i j : ℕ, i ≤ j → xa i ≤ xa j)
    (hstrict : ∀ i : ℕ, i + 1 ≤ n - 1 → ya i < ya (i + 1))
    {c c' : ℚ} (hcc : c ≤ c') (hc0 : ya 0 ≤ c) (hcM : c' ≤ ya (n - 1)) :
    splineLin ya xa n c ≤ splineLin ya xa n c' := by
  have hii := tabIdx_mono ya (n - 2) hcc
  rcases eq_or_lt_of_le hii with heq | hlt
  · have hidx : tabIdx ya (n - 2) c ≤ n - 2 := tabIdx_le ya _ c
    have hD : 0 < ya (tabIdx ya (n - 2) c + 1) - ya (tabIdx ya (n - 2) c) := by
      have := hstrict (tabIdx ya (n - 2) c) (by omega)
      linarith
    have hX : 0 ≤ xa (tabIdx ya (n - 2) c + 1) - xa (tabIdx ya (n - 2) c) := by
      have := hxa (tabIdx ya (n - 2) c) (tabIdx ya (n - 2) c + 1) (Nat.le_succ _)
      linarith
    simp only [splineLin, ← heq]
    have key : (xa (tabIdx ya (n - 2) c + 1) - xa (tabIdx ya (n - 2) c)) *
          (c - ya (tabIdx ya (n - 2) c)) /
          (ya (tabIdx ya (n - 2) c + 1) - ya (tabIdx ya (n - 2) c)) ≤
        (xa (tabIdx ya (n - 2) c + 1) - xa (tabIdx ya (n - 2) c)) *
          (c' - ya (tabIdx ya (n - 2) c)) /
          (ya (tabIdx ya (n - 2) c + 1) - ya (tabIdx ya (n - 2) c)) :=
      (div_le_div_iff_of_pos_right hD).2
        (mul_le_mul_of_nonneg_left (by linarith) hX)
    linarith
  · have h1 := (splineLin_bounds ya xa n c hn hxa hstrict hc0 (le_trans hcc hcM)).2
    have h2 := (splineLin_bounds ya xa n c' hn hxa hstrict (le_trans hc0 hcc) hcM).1
    have h3 := hxa (tabIdx ya (n - 2) c + 1) (tabIdx ya (n - 2) c') hlt
    linarith

lemma iCDFEval_eq_low (t : ICDF) (Qs : ℚ → ℚ) (g : ℚ)
    (h : 1 - Qs g < t.y_gamma_cdf 0) :
    iCDFEval t Qs g = t.x_gamma 0 / t.fluct := by
  simp only [iCDFEval]
  rw [if_pos h]

lemma iCDFEval_eq_high (t : ICDF) (Qs : ℚ → ℚ) (g : ℚ)
    (h0 : ¬(1 - Qs g < t.y_gamma_cdf 0)) (h : t.y_gamma_cdf (t.N - 1) < 1 - Qs g) :
    iCDFEval t Qs g = t.x_gamma (t.N - 1) / t.fluct := by
  simp only [iCDFEval]
  rw [if_neg h0, if_pos h]

lemma iCDFEval_eq_mid (t : ICDF) (Qs : ℚ → ℚ) (g : ℚ)
    (h0 : ¬(1 - Qs g < t.y_gamma_cdf 0)) (h1 : ¬(t.y_gamma_cdf (t.N - 1) < 1 - Qs g)) :
    iCDFEval t Qs g =
      (if splineLin t.y_gamma_cdf t.x_gamma t.N (1 - Qs g) / t.fluct < 0 then 0
       else splineLin t.y_gamma_cdf t.x_gamma t.N (1 - Qs g) / t.fluct) := by
  simp only [iCDFEval]
  rw [if_neg h0, if_neg h1]

lemma clampNeg_mono {a b : ℚ} (h : a ≤ b) :
    (if a < 0 then 0 else a) ≤ (if b < 0 then 0 else b) := by
  by_cases h1 : a < 0
  · rw [if_pos h1]
    by_cases h2 : b < 0
    · rw [if_pos h2]
    · rw [if_neg h2]; exact not_lt.1 h2
  · rw [if_neg h1, if_neg (not_lt.2 (le_trans (not_lt.1 h1) h))]
    exact h

lemma iCDFEval_mono_nonneg_aux (t : ICDF) (Qs : ℚ → ℚ)
    (hN : 2 ≤ t.N) (hfl : 0 < t.fluct) (hx0 : t.x_gamma 0 = 0)
    (hxa : ∀ i j : ℕ, i ≤ j → t.x_gamma i ≤ t.x_gamma j)
    (hstrict : ∀ i : ℕ, i + 1 ≤ t.N - 1 → t.y_gamma_cdf i < t.y_gamma_cdf (i + 1))
    (hya : ∀ i j : ℕ, i ≤ j → t.y_gamma_cdf i ≤ t.y_gamma_cdf j)
    (hQ : ∀ a b : ℚ, a ≤ b → Qs b ≤ Qs a) :
    (∀ g : ℚ, 0 ≤ iCDFEval t Qs g) ∧
    (∀ g1 g2 : ℚ, g1 ≤ g2 → iCDFEval t Qs g1 ≤ iCDFEval t Qs g2) := by
  have hxnn : ∀ i : ℕ, 0 ≤ t.x_gamma i := fun i => hx0 ▸ hxa 0 i (Nat.zero_le i)
  have hnn : ∀ g : ℚ, 0 ≤ iCDFEval t Qs g := by
    intro g
    by_cases h0 : 1 - Qs g < t.y_gamma_cdf 0
    · rw [iCDFEval_eq_low t Qs g h0, hx0]
      simp
    · by_cases h1 : t.y_gamma_cdf (t.N - 1) < 1 - Qs g
      · rw [iCDFEval_eq_high t Qs g h0 h1]
        exact div_nonneg (hxnn _) hfl.le
      · rw [iCDFEval_eq_mid t Qs g h0 h1]
        split_ifs with h2
        · exact le_refl 0
        · exact not_lt.1 h2
  refine ⟨hnn, fun g1 g2 hg => ?_⟩
  have hcc : 1 - Qs g1 ≤ 1 - Qs g2 := by have := hQ g1 g2 hg; linarith
  by_cases A1 : 1 - Qs g1 < t.y_gamma_cdf 0
  · rw [iCDFEval_eq_low t Qs g1 A1, hx0, zero_div]
    exact hnn g2
  · by_cases B1 : t.y_gamma_cdf (t.N - 1) < 1 - Qs g1
    · have hB2 : t.y_gamma_cdf (t.N - 1) < 1 - Qs g2 := lt_of_lt_of_le B1 hcc
      have h02 : ¬(1 - Qs g2 < t.y_gamma_cdf 0) :=
        not_lt.2 (le_trans (hya 0 (t.N - 1) (Nat.zero_le _)) hB2.le)
      rw [iCDFEval_eq_high t Qs g1 A1 B1, iCDFEval_eq_high t Qs g2 h02 hB2]
    · have hc10 := not_lt.1 A1
      have hc1M := not_lt.1 B1
      have h02 : ¬(1 - Qs g2 < t.y_gamma_cdf 0) := not_lt.2 (le_trans hc10 hcc)
      by_cases B2 : t.y_gamma_cdf (t.N - 1) < 1 - Qs g2
      · rw [iCDFEval_eq_mid t Qs g1 A1 B1, iCDFEval_eq_high t Qs g2 h02 B2]
        have hb := (splineLin_bounds t.y_gamma_cdf t.x_gamma t.N (1 - Qs g1)
          hN hxa hstrict hc10 hc1M).2
        have hi1 : tabIdx t.y_gamma_cdf (t.N - 2) (1 - Qs g1) + 1 ≤ t.N - 1 := by
          have := tabIdx_le t.y_gamma_cdf (t.N - 2) (1 - Qs g1); omega
        have hchain : splineLin t.y_gamma_cdf t.x_gamma t.N (1 - Qs g1) ≤
            t.x_gamma (t.N - 1) := le_trans hb (hxa _ _ hi1)
        split_ifs with h2
        · exact div_nonneg (hxnn _) hfl.le
        · exact (div_le_div_iff_of_pos_right hfl).2 hchain
      · rw [iCDFEval_eq_mid t Qs g1 A1 B1, iCDFEval_eq_mid t Qs g2 h02 B2]
        have hs := splineLin_mono t.y_gamma_cdf t.x_gamma t.N
          hN hxa hstrict hcc hc10 (not_lt.1 B2)
        have hr := (div_le_div_iff_of_pos_right hfl).2 hs
        exact clampNeg_mono hr

/-- **C5**: the Gamma inverse-CDF evaluation built by `iCDF::iCDF` is
total (it is a function on all of `ℚ`), monotone nondecreasing in the
normal deviate, and nonnegative on every input, given the defining
properties of the external collaborators: `gsl_sf_gamma_inc_P(fluct, ·)`
strictly increasing on nonnegative arguments and `gsl_sf_erf_Q`
nonincreasing. -/
theorem gamma_icdf_monotone_nonneg
    (N : ℕ) (fluct sqrtFluct : ℚ) (P : ℚ → ℚ → ℚ) (Qs : ℚ → ℚ)
    (hN : 2 ≤ N) (hfl : 0 < fluct) (hsq : 0 < sqrtFluct)
    (hP : ∀ a b : ℚ, 0 ≤ a → a < b → P fluct a < P fluct b)
    (hQ : ∀ a b : ℚ, a ≤ b → Qs b ≤ Qs a) :
    (∀ g : ℚ, 0 ≤ iCDFEval (iCDFInit N fluct sqrtFluct P) Qs g) ∧
    (∀ g1 g2 : ℚ, g1 < g2 →
      iCDFEval (iCDFInit N fluct sqrtFluct P) Qs g1 ≤
        iCDFEval (iCDFInit N fluct sqrtFluct P) Qs g2) := by
  have hNQ : (0:ℚ) < N := by
    have : 0 < N := by omega
    exact_mod_cast this
  have hdx : 0 < 10 * sqrtFluct / (N : ℚ) := div_pos (by linarith) hNQ
  have hx0 : (iCDFInit N fluct sqrtFluct P).x_gamma 0 = 0 := by
    simp [iCDFInit]
  have hxa : ∀ i j : ℕ, i ≤ j →
      (iCDFInit N fluct sqrtFluct P).x_gamma i ≤ (iCDFInit N fluct sqrtFluct P).x_gamma j := by
    intro i j hij
    simp only [iCDFInit]
    exact mul_le_mul_of_nonneg_right (by exact_mod_cast hij) hdx.le
  have hstrict : ∀ i : ℕ, i + 1 ≤ (iCDFInit N fluct sqrtFluct P).N - 1 →
      (iCDFInit N fluct sqrtFluct P).y_gamma_cdf i <
        (iCDFInit N fluct sqrtFluct P).y_gamma_cdf (i + 1) := by
    intro i _
    simp only [iCDFInit]
    refine hP _ _ (mul_nonneg (Nat.cast_nonneg i) hdx.le) ?_
    push_cast
    exact mul_lt_mul_of_pos_right (lt_add_one (i : ℚ)) hdx
  have hya : ∀ i j : ℕ, i ≤ j →
      (iCDFInit N fluct sqrtFluct P).y_gamma_cdf i ≤
        (iCDFInit N fluct sqrtFluct P).y_gamma_cdf j := by
    intro i j hij
    rcases Nat.eq_or_lt_of_le hij with rfl | hlt
    · exact le_refl _
    · simp only [iCDFInit]
      refine le_of_lt (hP _ _ (mul_nonneg (Nat.cast_nonneg i) hdx.le) ?_)
      exact mul_lt_mul_of_pos_right (by exact_mod_cast hlt) hdx
  obtain ⟨h1, h2⟩ := iCDFEval_mono_nonneg_aux (iCDFInit N fluct sqrtFluct P) Qs
    hN hfl hx0 hxa hstrict hya hQ
  exact ⟨h1, fun g1 g2 hg => h2 g1 g2 hg.le⟩

/-- Witness for C5: a 2-point table with the identity as the incomplete
gamma CDF model and a negation as the upper-tail model. -/
theorem gamma_icdf_monotone_nonneg_witness :
    0 ≤ iCDFEval (iCDFInit 2 1 1 (fun _ x => x)) (fun g => -g) (-2) ∧
    iCDFEval (iCDFInit 2 1 1 (fun _ x => x)) (fun g => -g) (-2) ≤
      iCDFEval (iCDFInit 2 1 1 (fun _ x => x)) (fun g => -g) 1 := by
  have h := gamma_icdf_monotone_nonneg 2 1 1 (fun _ x => x) (fun g => -g)
    (by norm_num) (by norm_num) (by norm_num)
    (fun a b _ hab => hab) (fun a b hab => neg_le_neg hab)
  exact ⟨h.1 (-2), h.2 (-2) 1 (by norm_num)⟩

/-- **C6**: `iCDF::iCDF` tabulates `N` quantiles `x_gamma[i] = i*dx`
evenly spaced with step `dx = 10*sqrt(fluct)/N` — all lying in
`[0, 10*sqrt(fluct)]` — together with their regularized lower
incomplete gamma CDF values, and the table is monotone on both axes;
`iCDF::operator()` returns the smallest tabulated quantile over `fluct`
below the table, the largest over `fluct` above it, and otherwise the
linear interpolation over `fluct` with negative results clamped to
`0`. -/
theorem gamma_icdf_table_and_eval
    (N : ℕ) (fluct sqrtFluct : ℚ) (P : ℚ → ℚ → ℚ) (Qs : ℚ → ℚ)
    (hN : 2 ≤ N) (hsq : 0 ≤ sqrtFluct)
    (hP : ∀ a b : ℚ, 0 ≤ a → a ≤ b → P fluct a ≤ P fluct b) :
    (∀ i : ℕ, (iCDFInit N fluct sqrtFluct P).x_gamma i = i * (10 * sqrtFluct / N)) ∧
    (∀ i : ℕ, i < N → 0 ≤ (iCDFInit N fluct sqrtFluct P).x_gamma i ∧
      (iCDFInit N fluct sqrtFluct P).x_gamma i ≤ 10 * sqrtFluct) ∧
    (∀ i : ℕ, (iCDFInit N fluct sqrtFluct P).y_gamma_cdf i =
      P fluct ((iCDFInit N fluct sqrtFluct P).x_gamma i)) ∧
    (∀ i j : ℕ, i ≤ j → (iCDFInit N fluct sqrtFluct P).x_gamma i ≤
      (iCDFInit N fluct sqrtFluct P).x_gamma j) ∧
    (∀ i j : ℕ, i ≤ j → (iCDFInit N fluct sqrtFluct P).y_gamma_cdf i ≤
      (iCDFInit N fluct sqrtFluct P).y_gamma_cdf j) ∧
    (∀ g : ℚ, 1 - Qs g < (iCDFInit N fluct sqrtFluct P).y_gamma_cdf 0 →
      iCDFEval (iCDFInit N fluct sqrtFluct P) Qs g =
        (iCDFInit N fluct sqrtFluct P).x_gamma 0 / fluct) ∧
    (∀ g : ℚ, (iCDFInit N fluct sqrtFluct P).y_gamma_cdf (N - 1) < 1 - Qs g →
      iCDFEval (iCDFInit N fluct sqrtFluct P) Qs g =
        (iCDFInit N fluct sqrtFluct P).x_gamma (N - 1) / fluct) ∧
    (∀ g : ℚ, (iCDFInit N fluct sqrtFluct P).y_gamma_cdf 0 ≤ 1 - Qs g →
      1 - Qs g ≤ (iCDFInit N fluct sqrtFluct P).y_gamma_cdf (N - 1) →
      iCDFEval (iCDFInit N fluct sqrtFluct P) Qs g =
        max 0 (splineLin (iCDFInit N fluct sqrtFluct P).y_gamma_cdf
          (iCDFInit N fluct sqrtFluct P).x_gamma N (1 - Qs g) / fluct)) := by
  have hNQ : (0:ℚ) < N := by
    have : 0 < N := by omega
    exact_mod_cast this
  have hdx : 0 ≤ 10 * sqrtFluct / (N : ℚ) := by positivity
  have hxa : ∀ i j : ℕ, i ≤ j → (iCDFInit N fluct sqrtFluct P).x_gamma i ≤
      (iCDFInit N fluct sqrtFluct P).x_gamma j := by
    intro i j hij
    simp only [iCDFInit]
    exact mul_le_mul_of_nonneg_right (by exact_mod_cast hij) hdx
  have hya : ∀ i j : ℕ, i ≤ j → (iCDFInit N fluct sqrtFluct P).y_gamma_cdf i ≤
      (iCDFInit N fluct sqrtFluct P).y_gamma_cdf j := by
    intro i j hij
    simp only [iCDFInit]
    exact hP _ _ (mul_nonneg (Nat.cast_nonneg i) hdx)
      (mul_le_mul_of_nonneg_right (by exact_mod_cast hij) hdx)
  refine ⟨fun i => rfl, fun i hi => ?_, fun i => rfl, hxa, hya,
    fun g hg => iCDFEval_eq_low _ Qs g hg,
    fun g hg => ?_, fun g hg0 hg1 => ?_⟩
  · constructor
    · exact mul_nonneg (Nat.cast_nonneg i) hdx
    · show (i : ℚ) * (10 * sqrtFluct / N) ≤ 10 * sqrtFluct
      have h1 : (i : ℚ) ≤ N := by exact_mod_cast le_of_lt hi
      have h2 : (i : ℚ) * (10 * sqrtFluct / N) ≤ (N : ℚ) * (10 * sqrtFluct / N) :=
        mul_le_mul_of_nonneg_right h1 hdx
      have h3 : (N : ℚ) * (10 * sqrtFluct / N) = 10 * sqrtFluct := by
        field_simp
      linarith
  · have h0 : ¬(1 - Qs g < (iCDFInit N fluct sqrtFluct P).y_gamma_cdf 0) :=
      not_lt.2 (le_trans (hya 0 (N - 1) (Nat.zero_le _)) hg.le)
    exact iCDFEval_eq_high _ Qs g h0 hg
  · have hNe : (iCDFInit N fluct sqrtFluct P).N = N := rfl
    have hfe : (iCDFInit N fluct sqrtFluct P).fluct = fluct := rfl
    rw [iCDFEval_eq_mid _ Qs g (not_lt.2 hg0) (not_lt.2 hg1), hNe, hfe]
    rcases lt_or_le (splineLin (iCDFInit N fluct sqrtFluct P).y_gamma_cdf
        (iCDFInit N fluct sqrtFluct P).x_gamma N (1 - Qs g) / fluct) 0 with h | h
    · rw [if_pos h]
      exact (max_eq_left h.le).symm
    · rw [if_neg (not_lt.2 h)]
      exact (max_eq_right h).symm

/-- Witness for C6: the 2-point table with identity CDF models,
exercising all three evaluation branches. -/
theorem gamma_icdf_table_and_eval_witness :
    (iCDFInit 2 1 1 (fun _ x => x)).x_gamma 1 = 1 * (10 * 1 / 2) ∧
    iCDFEval (iCDFInit 2 1 1 (fun _ x => x)) (fun g => -g) (-2) =
      (iCDFInit 2 1 1 (fun _ x => x)).x_gamma 0 / 1 ∧
    iCDFEval (iCDFInit 2 1 1 (fun _ x => x)) (fun g => -g) 7 =
      (iCDFInit 2 1 1 (fun _ x => x)).x_gamma (2 - 1) / 1 ∧
    iCDFEval (iCDFInit 2 1 1 (fun _ x => x)) (fun g => -g) 1 =
      max 0 (splineLin (iCDFInit 2 1 1 (fun _ x => x)).y_gamma_cdf
        (iCDFInit 2 1 1 (fun _ x => x)).x_gamma 2 (1 - (fun g : ℚ => -g) 1) / 1) := by
  have h := gamma_icdf_table_and_eval 2 1 1 (fun _ x => x) (fun g => -g)
    (by norm_num) (by norm_num) (fun a b _ hab => hab)
  refine ⟨h.1 1, h.2.2.2.2.2.1 (-2) ?_, h.2.2.2.2.2.2.1 7 ?_, h.2.2.2.2.2.2.2 1 ?_ ?_⟩
  · norm_num [iCDFInit]
  · norm_num [iCDFInit]
  · norm_num [iCDFInit]
  · norm_num [iCDFInit]

lemma mulAdd_mod (i j N : ℕ) (hj : j < N) : (i * N + j) % N = j := by
  rw [mul_comm, Nat.mul_add_mod, Nat.mod_eq_of_lt hj]

lemma mulAdd_div (i j N : ℕ) (hN : 0 < N) (hj : j < N) : (i * N + j) / N = i := by
  rw [mul_comm, Nat.mul_add_div hN, Nat.div_eq_of_lt hj, add_zero]

lemma loopAddr_sq (N n : ℕ) : loopAddr N N n = n := by
  rw [loopAddr, mul_comm]
  exact Nat.div_add_mod n N

lemma writeAddrs_sq (N : ℕ) : writeAddrs N N = List.range (N * N) := by
  rw [writeAddrs, show loopAddr N N = id from funext (loopAddr_sq N), List.map_id]

lemma foldl_setAt_untouched {α : Type} (f : α → ℕ) (val : (ℕ → Cell) → α → Cell)
    (l : List α) (g : ℕ → Cell) (m : ℕ) (hm : ∀ a ∈ l, f a ≠ m) :
    (l.foldl (fun h a => setAt h (f a) (val h a)) g) m = g m := by
  induction l generalizing g with
  | nil => rfl
  | cons a t ih =>
    rw [List.foldl_cons, ih _ (fun b hb => hm b (List.mem_cons_of_mem a hb))]
    exact if_neg (Ne.symm (hm a (List.mem_cons_self a t)))

lemma foldl_setAt_eq {α : Type} (f : α → ℕ) (val : (ℕ → Cell) → α → Cell)
    (hval : ∀ (h1 h2 : ℕ → Cell) (a : α), h1 (f a) = h2 (f a) → val h1 a = val h2 a)
    (l : List α) (hnd : l.Nodup) (g : ℕ → Cell) (p : α) (hp : p ∈ l)
    (hinj : ∀ q ∈ l, f q = f p → q = p) :
    (l.foldl (fun h a => setAt h (f a) (val h a)) g) (f p) = val g p := by
  induction l generalizing g with
  | nil => cases hp
  | cons a t ih =>
    rw [List.foldl_cons]
    rcases List.mem_cons.1 hp with rfl | hpt
    · have hnt : ∀ b ∈ t, f b ≠ f p := by
        intro b hb he
        exact (List.nodup_cons.1 hnd).1 ((hinj b (List.mem_cons_of_mem _ hb) he) ▸ hb)
      rw [foldl_setAt_untouched f val t _ _ hnt]
      simp [setAt]
    · have hanep : a ≠ p := fun he => (List.nodup_cons.1 hnd).1 (he ▸ hpt)
      have hfa : f a ≠ f p := fun he => hanep (hinj a (List.mem_cons_self a t) he)
      have hg : (setAt g (f a) (val g a)) (f p) = g (f p) := by
        simp [setAt, Ne.symm hfa]
      rw [ih (List.nodup_cons.1 hnd).2 _ hpt
        (fun q hq => hinj q (List.mem_cons_of_mem a hq))]
      exact hval _ _ p hg

lemma sq_index_mem (N i j : ℕ) (hi : i < N) (hj : j < N) : i * N + j < N * N := by
  have h2 : (i + 1) * N ≤ N * N := Nat.mul_le_mul_right N hi
  have h3 : i * N + j < (i + 1) * N := by
    rw [add_mul, one_mul]
    omega
  omega

/-- **C7 counterexample**: the claimed per-cell pipeline semantics does
not hold for arbitrary `(N1, N2)`: with `N1 = 2`, `N2 = 3` the
white-noise fill writes to addresses `i*N1+j`, so workspace cell `5` is
never written — it keeps its stale value `(42, 0)` instead of receiving
the fresh draw `noise 5 = 6` with zero imaginary channel. -/
theorem white_noise_aliases_nonsquare :
    real_space_white_noise 2 3 (fun n => (n : ℚ) + 1) (fun _ => (42, 0)) 5 = (42, 0) ∧
    ((42 : ℚ), (0 : ℚ)) ≠ (((5 : ℕ) : ℚ) + 1, (0 : ℚ)) := by
  constructor
  · decide
  · intro h
    rw [Prod.mk.injEq] at h
    norm_num at h

/-- **C7 amended**: on a square grid (`N1 = N2 = N`, a configuration
under which the `i*N1+j` addressing is a bijection of the workspace),
one realization is exactly the four-step pipeline: `run` is the
composition inverse-transform ∘ filter ∘ forward-transform ∘
white-noise fill; the fill puts the next standard-normal draw in the
real channel and `0` in the imaginary channel of every cell; and the
filter multiplies both channels of every frequency cell `(i, j)` by
`Var_k * exp(½·coeff_k·((min(i,N1-i)/L1)² + (min(j,N2-j)/L2)²))`.
(For non-square grids this per-cell semantics can fail — see the
counterexample at `N1 = 2`, `N2 = 3`; the exact characterization of
the addressing is the subject of the workspace-addressing theorem.) -/
theorem spectral_pipeline_square (N : ℕ) (L1 L2 Var_k coeff_k : ℚ) (fexp : ℚ → ℚ)
    (fwd bwd : (ℕ → Cell) → (ℕ → Cell)) (noise : ℕ → ℚ) (g G : ℕ → Cell)
    (i j : ℕ) (hi : i < N) (hj : j < N) :
    rft2dRun N N L1 L2 Var_k coeff_k fexp fwd bwd noise g =
      bwd (apply_k_spcae_propagation N N L1 L2 Var_k coeff_k fexp
        (fwd (real_space_white_noise N N noise g))) ∧
    real_space_white_noise N N noise g (i * N + j) = (noise (i * N + j), 0) ∧
    apply_k_spcae_propagation N N L1 L2 Var_k coeff_k fexp G (i * N + j) =
      (kerFactor N N L1 L2 Var_k coeff_k fexp i j * (G (i * N + j)).1,
       kerFactor N N L1 L2 Var_k coeff_k fexp i j * (G (i * N + j)).2) ∧
    kerFactor N N L1 L2 Var_k coeff_k fexp i j =
      Var_k * fexp (1/2 * coeff_k *
        (((min i (N - i) : ℕ) / L1) ^ 2 + ((min j (N - j) : ℕ) / L2) ^ 2)) := by
  have hN : 0 < N := lt_of_le_of_lt (Nat.zero_le i) hi
  have hmem : i * N + j ∈ List.range (N * N) := List.mem_range.2 (sq_index_mem N i j hi hj)
  have hinj : ∀ q ∈ List.range (N * N),
      loopAddr N N q = loopAddr N N (i * N + j) → q = i * N + j := by
    intro q _ h
    rwa [loopAddr_sq, loopAddr_sq] at h
  refine ⟨rfl, ?_, ?_, rfl⟩
  · have key := foldl_setAt_eq (loopAddr N N) (fun _ n => (noise n, 0))
      (fun _ _ _ _ => rfl) (List.range (N * N)) (List.nodup_range _) g (i * N + j) hmem hinj
    rw [loopAddr_sq] at key
    exact key
  · have key := foldl_setAt_eq (loopAddr N N)
      (fun h n =>
        (kerFactor N N L1 L2 Var_k coeff_k fexp (n / N) (n % N) * (h (loopAddr N N n)).1,
         kerFactor N N L1 L2 Var_k coeff_k fexp (n / N) (n % N) * (h (loopAddr N N n)).2))
      (fun h1 h2 a he => by simp only [he]) (List.range (N * N)) (List.nodup_range _) G
      (i * N + j) hmem hinj
    simp only [] at key
    rw [loopAddr_sq, mulAdd_div i j N hN hj, mulAdd_mod i j N hj] at key
    exact key

/-- Witness for C7 amended: a `2 × 2` grid, loop cell `(1, 0)`. -/
theorem spectral_pipeline_square_witness :
    real_space_white_noise 2 2 (fun n : ℕ => (n : ℚ)) (fun _ => (7, 7)) (1 * 2 + 0) =
      ((fun n : ℕ => (n : ℚ)) (1 * 2 + 0), 0) ∧
    apply_k_spcae_propagation 2 2 1 1 1 0 qTaylor2 (fun _ => (3, 5)) (1 * 2 + 0) =
      (kerFactor 2 2 1 1 1 0 qTaylor2 1 0 * ((fun _ => ((3 : ℚ), (5 : ℚ))) (1 * 2 + 0)).1,
       kerFactor 2 2 1 1 1 0 qTaylor2 1 0 * ((fun _ => ((3 : ℚ), (5 : ℚ))) (1 * 2 + 0)).2) := by
  have h := spectral_pipeline_square 2 1 1 1 0 qTaylor2 id id (fun n : ℕ => (n : ℚ))
    (fun _ => (7, 7)) (fun _ => (3, 5)) 1 0 (by norm_num) (by norm_num)
  exact ⟨h.2.1, h.2.2.1⟩

/-- **C10 counterexample**: the in-bounds, exactly-once guarantee does
hold for the non-square configuration `N1 = 1`, `N2 = 2` (the map
`n ↦ (n/N2)*N1 + n%N2` is the identity there), refuting the claim that
it fails for every `N1 ≠ N2`. -/
theorem addr_exactly_once_nonsquare_example :
    (1 : ℕ) ≠ 2 ∧ (∀ a ∈ writeAddrs 1 2, a < 1 * 2) ∧ (writeAddrs 1 2).Nodup := by
  refine ⟨by norm_num, by decide, by decide⟩

/-- **C10 amended**: both grid loops write at flat address `i*N1+j`
(iteration counter `n = i*N2+j`); for `N1 = N2` the address list is
exactly `range (N1*N2)` — every access in bounds and every cell touched
exactly once — and for every configuration with `2 ≤ N1`, `1 ≤ N2` and
`N1 ≠ N2` this guarantee fails (an access is out of bounds or some cell
is written more than once). -/
theorem spectral_workspace_addressing :
    (∀ N1 N2 i j : ℕ, 0 < N2 → j < N2 → loopAddr N1 N2 (i * N2 + j) = i * N1 + j) ∧
    (∀ N : ℕ, writeAddrs N N = List.range (N * N)) ∧
    (∀ N1 N2 : ℕ, 2 ≤ N1 → 1 ≤ N2 → N1 ≠ N2 →
      ¬((∀ a ∈ writeAddrs N1 N2, a < N1 * N2) ∧ (writeAddrs N1 N2).Nodup)) := by
  refine ⟨fun N1 N2 i j hN2 hj => ?_, writeAddrs_sq, fun N1 N2 h1 h2 hne => ?_⟩
  · rw [loopAddr, mulAdd_div i j N2 hN2 hj, mulAdd_mod i j N2 hj]
  · rintro ⟨hb, hnd⟩
    rw [writeAddrs] at hnd
    rcases lt_or_gt_of_ne hne with hlt | hgt
    · have hh1 : N1 * 2 ≤ N1 * N2 := Nat.mul_le_mul (le_refl N1) (by omega)
      have hh2 : 2 * N2 ≤ N1 * N2 := Nat.mul_le_mul h1 (le_refl N2)
      have hmem1 : N1 ∈ List.range (N1 * N2) := List.mem_range.2 (by linarith)
      have hmem2 : N2 ∈ List.range (N1 * N2) := List.mem_range.2 (by linarith)
      have hv1 : loopAddr N1 N2 N1 = N1 := by
        rw [loopAddr, Nat.div_eq_of_lt hlt, Nat.mod_eq_of_lt hlt, zero_mul, zero_add]
      have hv2 : loopAddr N1 N2 N2 = N1 := by
        rw [loopAddr, Nat.div_self (by omega), Nat.mod_self, one_mul, add_zero]
      exact hne (List.inj_on_of_nodup_map hnd hmem1 hmem2 (by rw [hv1, hv2]))
    · obtain ⟨a1, rfl⟩ : ∃ a1, N1 = a1 + 1 := ⟨N1 - 1, by omega⟩
      obtain ⟨b1, rfl⟩ : ∃ b1, N2 = b1 + 1 := ⟨N2 - 1, by omega⟩
      have hnm : a1 * (b1 + 1) + b1 < (a1 + 1) * (b1 + 1) := by
        have e : (a1 + 1) * (b1 + 1) = a1 * (b1 + 1) + b1 + 1 := by ring
        omega
      have hmem : loopAddr (a1 + 1) (b1 + 1) (a1 * (b1 + 1) + b1) ∈
          writeAddrs (a1 + 1) (b1 + 1) := by
        rw [writeAddrs]
        exact List.mem_map_of_mem _ (List.mem_range.2 hnm)
      have hval : loopAddr (a1 + 1) (b1 + 1) (a1 * (b1 + 1) + b1) = a1 * (a1 + 1) + b1 := by
        rw [loopAddr, mulAdd_div a1 b1 (b1 + 1) (by omega) (by omega),
          mulAdd_mod a1 b1 (b1 + 1) (by omega)]
      have hba := hb _ hmem
      rw [hval] at hba
      have ha1 : 1 ≤ a1 := by omega
      have e1 : (a1 + 1) * (b1 + 1) = a1 * (b1 + 1) + b1 + 1 := by ring
      have e2 : a1 * (b1 + 2) = a1 * (b1 + 1) + a1 := by ring
      have hle : a1 * (b1 + 2) ≤ a1 * (a1 + 1) := Nat.mul_le_mul (le_refl a1) (by omega)
      linarith

/-- Witness for C10 amended: address identity at `N1 = 5`, `N2 = 4`,
bijectivity at `N = 3`, and failure at `N1 = 3`, `N2 = 2`. -/
theorem spectral_workspace_addressing_witness :
    loopAddr 5 4 (2 * 4 + 3) = 2 * 5 + 3 ∧
    writeAddrs 3 3 = List.range (3 * 3) ∧
    ¬((∀ a ∈ writeAddrs 3 2, a < 3 * 2) ∧ (writeAddrs 3 2).Nodup) := by
  have h := spectral_workspace_addressing
  exact ⟨h.1 5 4 2 3 (by norm_num) (by norm_num), h.2.1 3,
    h.2.2 3 2 (by norm_num) (by norm_num) (by norm_num)⟩

/-- **C8 counterexample**: the constructors contain no validation and
no failure path; with grid sizes `0`, negative variance, correlation
length and width, construction still succeeds and produces a
fully-populated object (shown here by exhibiting the result and reading
back its fields), so the claim that such configurations are rejected at
construction is false. -/
theorem rft2d_construction_never_rejects :
    ∃ r : RFT2D,
      rft2dInit 0 0 1 1 (-1) (-1) 0 (-1) (fun q => q) (355/113) qTaylor2 (fun _ x => x) = r ∧
      r.N1 = 0 ∧ r.Ncut = 0 ∧ r.Var_x = -1 := by
  refine ⟨_, rfl, rfl, ?_, rfl⟩
  norm_num [rft2dInit, cTrunc]

/-- **C8 amended**: construction performs no input validation: for
every configuration, including non-positive grid size, width,
fluctuation shape or correlation length, both `rft2d::rft2d` and the
`iCDF` member it builds return a fully-populated object whose fields
are exactly the initializer-list formulas; no rejection occurs in these
constructors (the cross-section calibration lives in the profile
constructor, outside these sources). -/
theorem rft2d_construction_total (N1 N2 : ℤ) (L1 L2 Var_Phi lx : ℚ) (seed : ℤ)
    (width : ℚ) (sqrtFn : ℚ → ℚ) (pi_ : ℚ) (fexp : ℚ → ℚ) (P : ℚ → ℚ → ℚ)
    (hbad : N1 ≤ 0 ∨ N2 ≤ 0 ∨ width ≤ 0 ∨ Var_Phi ≤ 0 ∨ lx ≤ 0) :
    (rft2dInit N1 N2 L1 L2 Var_Phi lx seed width sqrtFn pi_ fexp P).N1 = N1 ∧
    (rft2dInit N1 N2 L1 L2 Var_Phi lx seed width sqrtFn pi_ fexp P).Var_k =
      sqrtFn (pi_ * 2 * lx * lx / (N1 : ℚ) / (N2 : ℚ) / L1 / L2) ∧
    (rft2dInit N1 N2 L1 L2 Var_Phi lx seed width sqrtFn pi_ fexp P).coeff_k =
      -pi_ * pi_ * 2 * lx * lx ∧
    (rft2dInit N1 N2 L1 L2 Var_Phi lx seed width sqrtFn pi_ fexp P).Ncut =
      cTrunc (3 * width * (N1 : ℚ) / L1) ∧
    (rft2dInit N1 N2 L1 L2 Var_Phi lx seed width sqrtFn pi_ fexp P).icdf =
      iCDFInit 500 Var_Phi (sqrtFn Var_Phi) P :=
  ⟨rfl, rfl, rfl, rfl, rfl⟩

/-- Witness for C8 amended: a configuration with `N2 = 0` and negative
width still yields the object with all initializer-list fields. -/
theorem rft2d_construction_total_witness :
    (rft2dInit 4 0 2 2 1 1 7 (-2) (fun q => q) (355/113) qTaylor2 (fun _ x => x)).N1 = 4 ∧
    (rft2dInit 4 0 2 2 1 1 7 (-2) (fun q => q) (355/113) qTaylor2 (fun _ x => x)).Var_k =
      (fun q : ℚ => q) ((355/113) * 2 * 1 * 1 / ((4 : ℤ) : ℚ) / ((0 : ℤ) : ℚ) / 2 / 2) ∧
    (rft2dInit 4 0 2 2 1 1 7 (-2) (fun q => q) (355/113) qTaylor2 (fun _ x => x)).coeff_k =
      -(355/113) * (355/113) * 2 * 1 * 1 ∧
    (rft2dInit 4 0 2 2 1 1 7 (-2) (fun q => q) (355/113) qTaylor2 (fun _ x => x)).Ncut =
      cTrunc (3 * (-2) * ((4 : ℤ) : ℚ) / 2) ∧
    (rft2dInit 4 0 2 2 1 1 7 (-2) (fun q => q) (355/113) qTaylor2 (fun _ x => x)).icdf =
      iCDFInit 500 1 ((fun q : ℚ => q) 1) (fun _ x => x) :=
  rft2d_construction_total 4 0 2 2 1 1 7 (-2) (fun q => q) (355/113) qTaylor2
    (fun _ x => x) (by norm_num)

/-- **C9 counterexample**: each kernel-table entry already carries the
cell-area factor `dxy2`, so summing the table and scaling *again* by
the cell area (as the claim prescribes) is far from `1`: for the
configuration `N1 = N2 = 1`, `L1 = L2 = 100`, `width = 1` (cell area
`10^4`, `cut = 0`) the scaled sum exceeds `10^6`. -/
theorem kernel_scaled_sum_far_from_one :
    10 ^ 6 < kernelScaledSum
      (rft2dInit 1 1 100 100 1 1 0 1 (fun q => q) (355/113) qTaylor2 (fun _ x => x)) := by
  norm_num [kernelScaledSum, kernelSum, rft2dInit, cTrunc, qTaylor2,
    Finset.sum_range_one]

/-- **C9 amended**: the kernel-table entries integrate the cell-area
factor themselves, and it is their plain sum that is normalized: for
the representative fine configuration `N1 = N2 = 20`, `L1 = L2 = 20`,
`width = 1` (`cut = 3`, cell area `1`), with 9-digit rational
approximations of `exp` and `M_PI`, the sum of the `(2*cut+1)^2`
entries lies within `1/100` of `1`. -/
theorem kernel_sum_normalized_fine_config :
    |kernelSum (rft2dInit 20 20 20 20 1 1 0 1 (fun q => q) (314159265 / 10 ^ 8)
        qExpNegInt (fun _ x => x)) - 1| < 1 / 100 := by
  have hncut : (rft2dInit 20 20 20 20 1 1 0 1 (fun q => q) (314159265 / 10 ^ 8)
      qExpNegInt (fun _ x => x)).Ncut = 3 := by
    norm_num [rft2dInit, cTrunc]
  rw [abs_lt, kernelSum, hncut]
  norm_num [rft2dInit, cTrunc, qExpNegInt, show Int.toNat 7 = 7 from rfl,
    show Int.toNat 2 = 2 from rfl, show Int.toNat 4 = 4 from rfl,
    show Int.toNat 5 = 5 from rfl, show Int.toNat 8 = 8 from rfl,
    show Int.toNat 9 = 9 from rfl, show Int.toNat 10 = 10 from rfl,
    show Int.toNat 13 = 13 from rfl, show Int.toNat 18 = 18 from rfl,
    Finset.sum_range_succ, Finset.sum_range_zero]

/-- Witness for C1 at a concrete profile, pair, field and stream. -/
theorem participate_pair_decision_witness :
    participate ⟨1/2, 9/4, 10, -1, 0, 1⟩ qTaylor2 (fun _ _ _ _ _ _ => 1)
      ⟨0, 0, 30, 40, false⟩ ⟨1, 0, 50, 60, false⟩ (fun _ => 9/10) =
      (true, setParticipant ⟨0, 0, 30, 40, false⟩, setParticipant ⟨1, 0, 50, 60, false⟩,
        rngTail (fun _ => 9/10)) := by
  have h := participate_pair_decision ⟨1/2, 9/4, 10, -1, 0, 1⟩ qTaylor2
      (fun _ _ _ _ _ _ => 1) ⟨0, 0, 30, 40, false⟩ ⟨1, 0, 50, 60, false⟩ (fun _ => 9/10)
      (by simp) (by norm_num)
  rw [h, if_pos (by norm_num [qTaylor2])]

end Trento3d
